import Mathlib

/-!
Verification of the Underline-Annotation-Tool core: a shallow embedding of
the text-boundary functions (`src/utils/textUtils.ts`) and of the
overlap-aware segment composition of `ParagraphRenderer.tsx`, followed by
theorems settling the specification claims.

Text buffers are modelled as `List Char` (JS strings of UTF-16 code units;
all inputs used here are ASCII).  User-supplied offsets are modelled as
`Int`, since the JS functions accept any numbers, including negative and
out-of-range ones.  The JS `while` loops are modelled as fueled structural
recursions, each called with a fuel that is an upper bound on the number of
iterations the JS loop can make, so the Lean function computes exactly the
JS result.
-/

/-- JS `\s` character class (ECMAScript WhiteSpace + LineTerminator). -/
def jsWs (c : Char) : Bool :=
  c = ' ' || c = '\t' || c = '\n' || c = '\r' || c = '\u000B' || c = '\u000C' ||
  c = ' ' || c = ' ' || (' ' ≤ c && c ≤ ' ') || c = ' ' ||
  c = ' ' || c = ' ' || c = ' ' || c = '　' || c = '﻿'

/-- The separator punctuation set `{. , ! ? ; :}` of `expandToWordBoundaries`. -/
def sepPunct (c : Char) : Bool :=
  c = '.' || c = ',' || c = '!' || c = '?' || c = ';' || c = ':'

/-- JS `text[i]`: the character, or `undefined` (here `none`) out of range. -/
def charAt (t : List Char) (i : Int) : Option Char :=
  if i < 0 then none else t.get? i.toNat

/-- JS `/\s/.test(text[i])`: `false` when `text[i]` is `undefined`
(the string `"undefined"` contains no whitespace). -/
def wsTest (oc : Option Char) : Bool :=
  match oc with
  | none => false
  | some c => jsWs c

/-- JS `/[^\s.,!?;:]/.test(text[i])`: `true` when `text[i]` is `undefined`
(the string `"undefined"` contains non-delimiter characters). -/
def wordTest (oc : Option Char) : Bool :=
  match oc with
  | none => true
  | some c => !(jsWs c || sepPunct c)

/-- The loop `while (start < end && /\s/.test(text[start])) start++`. -/
def trimLeftGo (t : List Char) (e : Int) : Nat → Int → Int
  | 0, s => s
  | f+1, s => if s < e && wsTest (charAt t s) then trimLeftGo t e f (s+1) else s

/-- The loop `while (end > start && /\s/.test(text[end - 1])) end--`. -/
def trimRightGo (t : List Char) (s : Int) : Nat → Int → Int
  | 0, e => e
  | f+1, e => if s < e && wsTest (charAt t (e-1)) then trimRightGo t s f (e-1) else e

/-- The loop `while (newStart > 0 && /[^\s.,!?;:]/.test(text[newStart - 1])) newStart--`. -/
def expandLeftGo (t : List Char) : Nat → Int → Int
  | 0, p => p
  | f+1, p => if 0 < p && wordTest (charAt t (p-1)) then expandLeftGo t f (p-1) else p

/-- The loop `while (newEnd < text.length && /[^\s.,!?;:]/.test(text[newEnd])) newEnd++`. -/
def expandRightGo (t : List Char) : Nat → Int → Int
  | 0, p => p
  | f+1, p =>
      if p < (t.length : Int) && wordTest (charAt t p) then expandRightGo t f (p+1) else p

/-- JS `String.prototype.slice` index normalization: negative indices wrap
from the end, and everything is clamped into `[0, length]`. -/
def jsSliceIdx (t : List Char) (x : Int) : Int :=
  if x < 0 then max ((t.length : Int) + x) 0 else min x (t.length : Int)

/-- JS `String.prototype.slice`. -/
def jsSlice (t : List Char) (a b : Int) : List Char :=
  if jsSliceIdx t a < jsSliceIdx t b then
    (t.drop (jsSliceIdx t a).toNat).take (jsSliceIdx t b - jsSliceIdx t a).toNat
  else []

/-- JS `/^[\s.,!?;:]+$/.test(str)`: nonempty and all whitespace/punctuation. -/
def wsOrSepOnly (l : List Char) : Bool :=
  !l.isEmpty && l.all (fun c => jsWs c || sepPunct c)

/-- The start offset after the whitespace-trimming phase of
`expandToWordBoundaries`. -/
def trimmedStart (t : List Char) (s e : Int) : Int :=
  trimLeftGo t e (e - s).toNat s

/-- The end offset after the whitespace-trimming phase of
`expandToWordBoundaries` (the right trim runs after the left trim). -/
def trimmedStop (t : List Char) (s e : Int) : Int :=
  trimRightGo t (trimmedStart t s e) (e - trimmedStart t s e).toNat e

/-- `expandToWordBoundaries` from `src/utils/textUtils.ts`. -/
def expandToWordBoundaries (t : List Char) (s e : Int) : Int × Int :=
  if e ≤ s then (s, e)
  else if trimmedStop t s e ≤ trimmedStart t s e then (trimmedStart t s e, trimmedStop t s e)
  else if wsOrSepOnly (jsSlice t (trimmedStart t s e) (trimmedStop t s e)) then
    (trimmedStart t s e, trimmedStop t s e)
  else
    (expandLeftGo t (trimmedStart t s e).toNat (trimmedStart t s e),
     expandRightGo t ((t.length : Int) - trimmedStop t s e).toNat (trimmedStop t s e))

/-!
Sentence segmentation (`getSentenceBoundaries`).  The source matches the
regex `[^.!?\s][^.!?]*(?:[.!?](?!...)[^.!?]*)*[.!?]?['"]?(?=\s|$)` with the
`g` flag in an `exec` loop.  We embed the regex as a specialized
backtracking matcher with the standard leftmost / greedy / ordered-choice
semantics of ECMAScript regexes: greedy pieces try the longest extent
first and give characters back on failure of the continuation.
-/

/-- A sentence terminator `[.!?]` at position `i` (false past the end). -/
def termAt (s : List Char) (i : Nat) : Bool :=
  match s.get? i with
  | some c => c = '.' || c = '!' || c = '?'
  | none => false

/-- A closing quote `['"]` at position `i`. -/
def quoteAt (s : List Char) (i : Nat) : Bool :=
  match s.get? i with
  | some c => c = Char.ofNat 39 || c = Char.ofNat 34
  | none => false

/-- A whitespace character at position `i`. -/
def wsAt (s : List Char) (i : Nat) : Bool :=
  match s.get? i with
  | some c => jsWs c
  | none => false

/-- The regex anchor `$` (no multiline flag): end of input. -/
def atEnd (s : List Char) (i : Nat) : Bool := i = s.length

/-- The lookahead `(?=\s|$)` at position `i`. -/
def endOrWsAt (s : List Char) (i : Nat) : Bool := wsAt s i || atEnd s i

/-- Whether the body of the negative lookahead `(?!['"]?\s|$)` can match at
position `i`: an optional quote followed by whitespace, or end of input. -/
def negInner (s : List Char) (i : Nat) : Bool :=
  (quoteAt s i && wsAt s (i+1)) || wsAt s i || atEnd s i

/-- A character matching `[^.!?]` at position `i` (needs a character). -/
def nontermAt (s : List Char) (i : Nat) : Bool :=
  match s.get? i with
  | some c => !(c = '.' || c = '!' || c = '?')
  | none => false

/-- Fueled scan for the end of the maximal `[^.!?]*` run from `i`. -/
def runEndGo (s : List Char) : Nat → Nat → Nat
  | 0, i => i
  | f+1, i => if nontermAt s i then runEndGo s f (i+1) else i

/-- End of the maximal `[^.!?]*` run starting at `i`. -/
def runEnd (s : List Char) (i : Nat) : Nat := runEndGo s (s.length - i) i

/-- Match the regex tail `['"]?(?=\s|$)` at `q` (quote taken greedily). -/
def tryEF (s : List Char) (q : Nat) : Option Nat :=
  if quoteAt s q && endOrWsAt s (q+1) then some (q+1)
  else if endOrWsAt s q then some q
  else none

/-- Match the regex tail `[.!?]?['"]?(?=\s|$)` at `pos` (the optional
terminator taken greedily, backtracking to the empty option). -/
def tryDEF (s : List Char) (pos : Nat) : Option Nat :=
  if termAt s pos then
    match tryEF s (pos+1) with
    | some e => some e
    | none => tryEF s pos
  else tryEF s pos

/-- Try `g` at `k`, then at `k-1`, …, `fuel+1` attempts in all: the
give-back search of a greedy `*` over character positions. -/
def tryRunDesc (g : Nat → Option Nat) : Nat → Nat → Option Nat
  | 0, k => g k
  | f+1, k =>
    match g k with
    | some e => some e
    | none => tryRunDesc g f (k-1)

/-- Match `(?:[.!?](?!['"]?\s|$)[^.!?]*)*[.!?]?['"]?(?=\s|$)` at `pos`:
the greedy star tries one more group iteration first (terminator passing
the negative lookahead, then a greedy `[^.!?]*` giving characters back),
and falls back to the `tryDEF` tail.  Each group iteration consumes at
least one character, so fuel `s.length + 1` never runs out. -/
def tryCGo (s : List Char) : Nat → Nat → Option Nat
  | 0, _ => none
  | f+1, pos =>
    if termAt s pos && !negInner s (pos+1) then
      match tryRunDesc (tryCGo s f) (runEnd s (pos+1) - (pos+1)) (runEnd s (pos+1)) with
      | some e => some e
      | none => tryDEF s pos
    else tryDEF s pos

/-- Match the whole sentence regex at position `i`: the leading
`[^.!?\s]`, then the greedy `[^.!?]*` (giving characters back), then the
rest of the pattern.  Returns the end of the match. -/
def matchAt (s : List Char) (i : Nat) : Option Nat :=
  match s.get? i with
  | none => none
  | some c =>
    if !(c = '.' || c = '!' || c = '?') && !jsWs c then
      tryRunDesc (tryCGo s (s.length + 1)) (runEnd s (i+1) - (i+1)) (runEnd s (i+1))
    else none

/-- Leftmost match at or after position `i` (the `g`-flag `exec` search
from `lastIndex`). -/
def findFrom (s : List Char) : Nat → Nat → Option (Nat × Nat)
  | 0, _ => none
  | f+1, i =>
    match matchAt s i with
    | some e => some (i, e)
    | none => if i < s.length then findFrom s f (i+1) else none

structure SentenceBoundary where
  start : Nat
  stop : Nat
deriving DecidableEq

/-- The `while ((match = sentenceRegex.exec(text)) !== null)` loop: every
match is nonempty, so `lastIndex` strictly increases and `length + 1`
rounds of fuel suffice. -/
def scanGo (s : List Char) : Nat → Nat → List SentenceBoundary
  | 0, _ => []
  | f+1, pos =>
    match findFrom s (s.length + 1) pos with
    | none => []
    | some (i, e) => ⟨i, e⟩ :: scanGo s f e

/-- `getSentenceBoundaries` from `src/utils/textUtils.ts`, whole-buffer
fallback included. -/
def getSentenceBoundaries (t : List Char) : List SentenceBoundary :=
  if (scanGo t (t.length + 1) 0).isEmpty && decide (0 < t.length) then [⟨0, t.length⟩]
  else scanGo t (t.length + 1) 0

/-- The text of the concrete scenarios in the specification. -/
def helloText : List Char := "Hello world. Good day!".data

/-- `isWithinSingleSentence` from `src/utils/textUtils.ts` (boundaries
recomputed, as when the optional parameter is not supplied). -/
def isWithinSingleSentence (t : List Char) (s e : Int) : Bool :=
  (getSentenceBoundaries t).any
    (fun b => ((b.start : Int) ≤ s && e ≤ (b.stop : Int)))

/-- The containment test `start >= boundary.start && start < boundary.end`. -/
def clipPred (s : Int) (b : SentenceBoundary) : Bool :=
  (b.start : Int) ≤ s && s < (b.stop : Int)

/-- The `for (const boundary of boundaries)` loop of
`clipToSentenceBoundary`. -/
def clipGo (s e : Int) : List SentenceBoundary → Int × Int
  | [] => (s, e)
  | b :: bs =>
    if clipPred s b then
      (max s (b.start : Int), min e (b.stop : Int))
    else clipGo s e bs

/-- `clipToSentenceBoundary` from `src/utils/textUtils.ts` (boundaries
recomputed, as when the optional parameter is not supplied). -/
def clipToSentenceBoundary (t : List Char) (s e : Int) : Int × Int :=
  clipGo s e (getSentenceBoundaries t)

/-!
The RangeCompositor (`ParagraphRenderer.tsx`): per-position covering-range
computation and the segment-partition loop.  `Array.prototype.sort` with
the consistent comparator `(a.endIndex - a.startIndex) - (b.endIndex -
b.startIndex)` is guaranteed stable by the ECMAScript specification; the
stable length-sort is embedded as `List.insertionSort`, which sorts stably
with respect to a `≤`-shaped relation.  Range lengths are computed over
`Int` exactly as the JS number subtraction does. -/

structure Underline where
  id : String
  startIndex : Nat
  endIndex : Nat
deriving DecidableEq

/-- The JS length `u.endIndex - u.startIndex` (number subtraction). -/
def ulLen (u : Underline) : Int := (u.endIndex : Int) - (u.startIndex : Int)

/-- The sort relation: nondecreasing range length. -/
def lenLE (a b : Underline) : Prop := ulLen a ≤ ulLen b

instance : DecidableRel lenLE := fun a b => by unfold lenLE; infer_instance

instance : IsTotal Underline lenLE := ⟨fun a b => le_total (ulLen a) (ulLen b)⟩

instance : IsTrans Underline lenLE := ⟨fun _ _ _ h1 h2 => le_trans h1 h2⟩

/-- The filter predicate `index >= ul.startIndex && index < ul.endIndex`. -/
def coversIdx (i : Nat) (u : Underline) : Bool :=
  u.startIndex ≤ i && i < u.endIndex

/-- The covering underlines of position `i`, stably sorted by length
(shortest first): `underlines.filter(...).sort(...)`. -/
def sortedCovering (uls : List Underline) (i : Nat) : List Underline :=
  List.insertionSort lenLE (uls.filter (coversIdx i))

/-- `getUnderlineIdsForIndex` from `ParagraphRenderer.tsx`:
filter, stable sort by length, map to ids. -/
def getUnderlineIdsForIndex (uls : List Underline) (i : Nat) : List String :=
  (sortedCovering uls i).map (fun u => u.id)

structure Segment where
  start : Nat
  stop : Nat
  underlineIds : List String
deriving DecidableEq

/-- The segment-grouping loop of `ParagraphRenderer.tsx`: `i` runs from 1
to `len`; a segment is pushed when the covering-id list changes or the end
of the buffer is reached (`underlineMap[len]` is `undefined`, read back as
`[]`).  `JSON.stringify` equality of string arrays is list equality. -/
def segLoop (f : Nat → List String) (len : Nat) : Nat → Nat → Nat → List Segment
  | 0, _, _ => []
  | fuel+1, i, segStart =>
    if i ≤ len then
      let prev := f (i-1)
      let curr := if i < len then f i else []
      if prev ≠ curr ∨ i = len then
        ⟨segStart, i, prev⟩ :: segLoop f len fuel (i+1) i
      else
        segLoop f len fuel (i+1) segStart
    else []

/-- The segment partition computed by `ParagraphRenderer.tsx` (named
`composeSegments` in the specification). -/
def composeSegments (t : List Char) (uls : List Underline) : List Segment :=
  segLoop (getUnderlineIdsForIndex uls) t.length (t.length + 1) 1 0

/-- `resolveClickTarget` of the specification: the click handler selects
`seg.underlineIds[0]` when the list is nonempty. -/
def resolveClickTarget (ids : List String) : Option String := ids.head?

/-- The range list of the concrete scenario of the specification. -/
def helloRanges : List Underline :=
  [⟨"a", 0, 5⟩, ⟨"b", 0, 11⟩]

/-! Lower bounds on match positions, used for the boundary-list order
invariant. -/

theorem runEndGo_ge (s : List Char) : ∀ f i, i ≤ runEndGo s f i := by
  intro f
  induction f with
  | zero => intro i; exact Nat.le_refl i
  | succ f ih =>
    intro i
    unfold runEndGo
    split
    · exact Nat.le_trans (Nat.le_succ i) (ih (i+1))
    · exact Nat.le_refl i

theorem runEnd_ge (s : List Char) (i : Nat) : i ≤ runEnd s i :=
  runEndGo_ge s _ i

theorem tryEF_some_ge (s : List Char) (q e : Nat) (h : tryEF s q = some e) : q ≤ e := by
  unfold tryEF at h
  split at h
  · cases h; exact Nat.le_succ q
  · split at h
    · cases h; exact Nat.le_refl q
    · cases h

theorem tryDEF_some_ge (s : List Char) (pos e : Nat) (h : tryDEF s pos = some e) :
    pos ≤ e := by
  unfold tryDEF at h
  split at h
  · revert h
    split
    · intro h; cases h
      exact Nat.le_trans (Nat.le_succ pos) (tryEF_some_ge s (pos+1) _ (by assumption))
    · exact fun h => tryEF_some_ge s pos e h
  · exact tryEF_some_ge s pos e h

theorem tryRunDesc_some (g : Nat → Option Nat) :
    ∀ f k e, tryRunDesc g f k = some e → ∃ k2, k2 ≤ k ∧ k ≤ k2 + f ∧ g k2 = some e := by
  intro f
  induction f with
  | zero =>
    intro k e h
    exact ⟨k, Nat.le_refl k, Nat.le_refl k, h⟩
  | succ f ih =>
    intro k e h
    unfold tryRunDesc at h
    revert h
    split
    · intro h; cases h
      exact ⟨k, Nat.le_refl k, Nat.le_add_right k (f+1), by assumption⟩
    · intro h
      obtain ⟨k2, hk1, hk2, hg⟩ := ih (k-1) e h
      exact ⟨k2, by omega, by omega, hg⟩

theorem tryCGo_some_ge (s : List Char) :
    ∀ f pos e, tryCGo s f pos = some e → pos ≤ e := by
  intro f
  induction f with
  | zero => intro pos e h; cases h
  | succ f ih =>
    intro pos e h
    unfold tryCGo at h
    by_cases hc : (termAt s pos && !negInner s (pos+1)) = true
    · rw [if_pos hc] at h
      cases hr : tryRunDesc (tryCGo s f) (runEnd s (pos+1) - (pos+1)) (runEnd s (pos+1)) with
      | none => rw [hr] at h; exact tryDEF_some_ge s pos e h
      | some e2 =>
        rw [hr] at h
        simp only [Option.some.injEq] at h
        obtain ⟨k2, hk1, hk2, hg⟩ := tryRunDesc_some _ _ _ _ hr
        have h1 : pos + 1 ≤ runEnd s (pos+1) := runEnd_ge s (pos+1)
        have h2 := ih k2 e2 hg
        omega
    · rw [if_neg hc] at h
      exact tryDEF_some_ge s pos e h

theorem matchAt_some (s : List Char) (i e : Nat) (h : matchAt s i = some e) :
    i + 1 ≤ e := by
  unfold matchAt at h
  revert h
  split
  · intro h; cases h
  · split
    · intro h
      obtain ⟨k2, hk1, hk2, hg⟩ := tryRunDesc_some _ _ _ _ h
      have h1 : i + 1 ≤ runEnd s (i+1) := runEnd_ge s (i+1)
      have h2 := tryCGo_some_ge s _ k2 e hg
      omega
    · intro h; cases h

theorem findFrom_some (s : List Char) :
    ∀ f i j e, findFrom s f i = some (j, e) → i ≤ j ∧ matchAt s j = some e := by
  intro f
  induction f with
  | zero => intro i j e h; cases h
  | succ f ih =>
    intro i j e h
    unfold findFrom at h
    revert h
    split
    · rename_i e2 heq
      intro h
      simp only [Option.some.injEq, Prod.mk.injEq] at h
      obtain ⟨rfl, rfl⟩ := h
      exact ⟨Nat.le_refl _, heq⟩
    · split
      · intro h
        obtain ⟨h1, h2⟩ := ih (i+1) j e h
        exact ⟨by omega, h2⟩
      · intro h; cases h

theorem scanGo_inv (s : List Char) :
    ∀ f pos, (∀ b ∈ scanGo s f pos, pos ≤ b.start ∧ b.start + 1 ≤ b.stop) ∧
      List.Pairwise (fun b1 b2 => b1.start ≤ b2.start ∧ b1.stop ≤ b2.start)
        (scanGo s f pos) := by
  intro f
  induction f with
  | zero => intro pos; exact ⟨fun b hb => (nomatch hb), List.Pairwise.nil⟩
  | succ f ih =>
    intro pos
    unfold scanGo
    split
    · exact ⟨fun b hb => (nomatch hb), List.Pairwise.nil⟩
    · rename_i i e heq
      obtain ⟨hpos, hmatch⟩ := findFrom_some s _ pos i e heq
      have he : i + 1 ≤ e := matchAt_some s i e hmatch
      obtain ⟨ihmem, ihpw⟩ := ih e
      constructor
      · intro b hb
        cases hb with
        | head => exact ⟨hpos, he⟩
        | tail _ hb =>
          obtain ⟨h1, h2⟩ := ihmem b hb
          exact ⟨by omega, h2⟩
      · refine List.Pairwise.cons ?_ ihpw
        intro b hb
        obtain ⟨h1, h2⟩ := ihmem b hb
        refine ⟨?_, ?_⟩ <;> dsimp only <;> omega

/-!
Claim theorems.
-/

/-- C1 (counterexample): the spec scenario's third segment is claimed to be
`{11, 23, []}`, but the text `"Hello world. Good day!"` has length 22, so
`composeSegments` does not return the claimed list. -/
theorem claim1_compose_hello_cex :
    composeSegments helloText helloRanges ≠
      [⟨0, 5, ["a", "b"]⟩, ⟨5, 11, ["b"]⟩, ⟨11, 23, []⟩] := by decide

/-- C1 (amended): for the spec scenario, `composeSegments` returns exactly
the segments `{0,5,["a","b"]}`, `{5,11,["b"]}`, `{11,22,[]}`, in that
order (the final segment ends at the text length 22, not 23). -/
theorem claim1_compose_hello :
    composeSegments helloText helloRanges =
      [⟨0, 5, ["a", "b"]⟩, ⟨5, 11, ["b"]⟩, ⟨11, 22, []⟩] := by decide

/-- C5: `isWithinSingleSentence` returns true iff some single sentence
boundary contains `[start, end)`; in particular true on
`("Hello world. Good day!", 0, 11)` and false on `(…, 8, 15)`. -/
theorem claim5_within_single_sentence :
    (∀ (t : List Char) (s e : Int),
      isWithinSingleSentence t s e = true ↔
        ∃ b ∈ getSentenceBoundaries t, (b.start : Int) ≤ s ∧ e ≤ (b.stop : Int))
    ∧ isWithinSingleSentence helloText 0 11 = true
    ∧ isWithinSingleSentence helloText 8 15 = false := by
  refine ⟨fun t s e => ?_, by decide, by decide⟩
  simp [isWithinSingleSentence, List.any_eq_true, Bool.and_eq_true,
    decide_eq_true_eq]

/-- C6: the boundary list of `getSentenceBoundaries` is ordered
left-to-right by start offset, and distinct boundaries never overlap: each
earlier boundary ends no later than any later one starts. -/
theorem claim6_boundaries_ordered_disjoint (t : List Char) :
    List.Pairwise (fun b1 b2 => b1.start ≤ b2.start ∧ b1.stop ≤ b2.start)
      (getSentenceBoundaries t) := by
  unfold getSentenceBoundaries
  split
  · exact List.pairwise_singleton _ _
  · exact (scanGo_inv t (t.length + 1) 0).2

/-- C7: `getSentenceBoundaries` returns `[]` on the empty text, the single
fallback boundary `{0,3}` on `"!!!"`, and in general the whole-buffer
boundary on any nonempty text in which the scan recognizes no sentence
run. -/
theorem claim7_fallback :
    getSentenceBoundaries [] = []
    ∧ getSentenceBoundaries "!!!".data = [⟨0, 3⟩]
    ∧ ∀ t : List Char, t.length ≠ 0 → scanGo t (t.length + 1) 0 = [] →
        getSentenceBoundaries t = [⟨0, t.length⟩] := by
  refine ⟨by decide, by decide, fun t h1 h2 => ?_⟩
  unfold getSentenceBoundaries
  rw [h2]
  simp [Nat.pos_of_ne_zero h1]

/-- C7 witness: a concrete nonempty text with no recognized sentence run,
through the general fallback law. -/
theorem claim7_fallback_witness :
    "?.".data.length ≠ 0 ∧ scanGo "?.".data ("?.".data.length + 1) 0 = []
    ∧ getSentenceBoundaries "?.".data = [⟨0, "?.".data.length⟩] :=
  ⟨by decide, by decide,
    claim7_fallback.2.2 "?.".data (by decide) (by decide)⟩

/-- The first-boundary-containing-the-start search of
`clipToSentenceBoundary`, as a `find?`. -/
theorem clipGo_find (s e : Int) :
    ∀ bl : List SentenceBoundary,
      (∀ b, bl.find? (clipPred s) = some b →
        clipGo s e bl = (max s (b.start : Int), min e (b.stop : Int)))
      ∧ (bl.find? (clipPred s) = none → clipGo s e bl = (s, e)) := by
  intro bl
  induction bl with
  | nil =>
    refine ⟨fun b h => ?_, fun _ => rfl⟩
    cases h
  | cons b bs ih =>
    by_cases hp : clipPred s b = true
    · refine ⟨fun b2 h => ?_, fun h => ?_⟩
      · rw [List.find?_cons_of_pos _ hp] at h
        simp only [Option.some.injEq] at h
        subst h
        unfold clipGo
        rw [if_pos hp]
      · rw [List.find?_cons_of_pos _ hp] at h
        cases h
    · refine ⟨fun b2 h => ?_, fun h => ?_⟩
      · rw [List.find?_cons_of_neg _ hp] at h
        unfold clipGo
        rw [if_neg hp]
        exact (ih.1 b2 h)
      · rw [List.find?_cons_of_neg _ hp] at h
        unfold clipGo
        rw [if_neg hp]
        exact (ih.2 h)

/-- C8: if some boundary is the first (in produced order) whose half-open
span contains the start offset, `clipToSentenceBoundary` returns
`(max start b.start, min end b.end)`; if no boundary contains the start
offset, the input pair is returned unchanged. -/
theorem claim8_clip_first_boundary (t : List Char) (s e : Int) :
    (∀ b, (getSentenceBoundaries t).find? (clipPred s) = some b →
      clipToSentenceBoundary t s e = (max s (b.start : Int), min e (b.stop : Int)))
    ∧ ((getSentenceBoundaries t).find? (clipPred s) = none →
      clipToSentenceBoundary t s e = (s, e)) :=
  clipGo_find s e (getSentenceBoundaries t)

/-- C8 witness: on the spec scenario text with start 8 the first boundary
containing the start is `{0,12}`, and the clip is applied there. -/
theorem claim8_clip_witness :
    clipToSentenceBoundary helloText 8 15 = (max 8 ((0 : Nat) : Int), min 15 ((12 : Nat) : Int)) :=
  (claim8_clip_first_boundary helloText 8 15).1 ⟨0, 12⟩ (by decide)

/-- C9: every core function is a total function of its inputs — text
buffers, arbitrary (possibly negative, reversed, or out-of-range) integer
offsets, range lists — and returns a defined result. -/
theorem claim9_totality :
    (∀ (t : List Char) (s e : Int), ∃ p, expandToWordBoundaries t s e = p)
    ∧ (∀ t : List Char, ∃ bl, getSentenceBoundaries t = bl)
    ∧ (∀ (t : List Char) (s e : Int), ∃ b, isWithinSingleSentence t s e = b)
    ∧ (∀ (t : List Char) (s e : Int), ∃ p, clipToSentenceBoundary t s e = p)
    ∧ (∀ (t : List Char) (uls : List Underline), ∃ sg, composeSegments t uls = sg)
    ∧ (∀ ids : List String, ∃ r, resolveClickTarget ids = r) :=
  ⟨fun t s e => ⟨_, rfl⟩, fun t => ⟨_, rfl⟩, fun t s e => ⟨_, rfl⟩,
   fun t s e => ⟨_, rfl⟩, fun t uls => ⟨_, rfl⟩, fun ids => ⟨_, rfl⟩⟩

/-!
C3: the segment partition is a gapless chain over `[0, length)`.
-/

/-- `isChain a b segs`: the segments tile `[a, b)` exactly: consecutive,
nonempty, each starting where the previous one ended, the last ending at
`b` (and `a = b` for the empty list). -/
def isChain : Nat → Nat → List Segment → Prop
  | a, b, [] => a = b
  | a, b, sg :: rest => sg.start = a ∧ a < sg.stop ∧ isChain sg.stop b rest

theorem segLoop_past (f : Nat → List String) (len : Nat) :
    ∀ fuel i segStart, len < i → segLoop f len fuel i segStart = [] := by
  intro fuel
  cases fuel with
  | zero => intro i segStart h; rfl
  | succ fuel => intro i segStart h; unfold segLoop; rw [if_neg (by omega)]

theorem segLoop_chain (f : Nat → List String) (len : Nat) :
    ∀ fuel i segStart, segStart < i → i ≤ len → len + 1 ≤ fuel + i →
      isChain segStart len (segLoop f len fuel i segStart) := by
  intro fuel
  induction fuel with
  | zero => intro i segStart h1 h2 h3; omega
  | succ fuel ih =>
    intro i segStart h1 h2 h3
    unfold segLoop
    rw [if_pos h2]
    by_cases hpush : (f (i-1) ≠ (if i < len then f i else []) ∨ i = len)
    · rw [if_pos hpush]
      refine ⟨rfl, h1, ?_⟩
      by_cases hi : i = len
      · subst hi
        rw [segLoop_past f i fuel (i+1) i (by omega)]
        rfl
      · exact ih (i+1) i (by omega) (by omega) (by omega)
    · rw [if_neg hpush]
      have hi : i ≠ len := by
        intro hh
        exact hpush (Or.inr hh)
      exact ih (i+1) segStart (by omega) (by omega) (by omega)

theorem segLoop_empty_ids (f : Nat → List String) (len : Nat)
    (hf : ∀ i, f i = []) :
    ∀ fuel i segStart, i ≤ len → len + 1 ≤ fuel + i →
      segLoop f len fuel i segStart = [⟨segStart, len, []⟩] := by
  intro fuel
  induction fuel with
  | zero => intro i segStart h1 h2; omega
  | succ fuel ih =>
    intro i segStart h1 h2
    unfold segLoop
    rw [if_pos h1]
    by_cases hi : i = len
    · subst hi
      rw [if_pos (Or.inr rfl)]
      rw [segLoop_past f i fuel (i+1) i (by omega)]
      rw [hf (i-1)]
    · have hlt : i < len := by omega
      rw [if_neg ?_]
      · exact ih (i+1) segStart (by omega) (by omega)
      · intro hor
        cases hor with
        | inl hne => exact hne (by rw [hf, if_pos hlt, hf])
        | inr heq => exact hi heq

/-- C3: for every text and range list the segments of `composeSegments`
are contiguous and non-overlapping and tile exactly `[0, length)`; an
empty range list gives the single whole-buffer segment with no covering
ids, and an empty buffer gives no segments. -/
theorem claim3_segments_gapless (t : List Char) (uls : List Underline) :
    isChain 0 t.length (composeSegments t uls)
    ∧ composeSegments t [] =
        (if t.length = 0 then [] else [⟨0, t.length, []⟩]) := by
  constructor
  · unfold composeSegments
    by_cases h : t.length = 0
    · rw [h]
      rw [segLoop_past _ 0 1 1 0 (by omega)]
      rfl
    · exact segLoop_chain _ t.length (t.length + 1) 1 0 (by omega) (by omega) (by omega)
  · unfold composeSegments
    by_cases h : t.length = 0
    · rw [if_pos h, h]
      rw [segLoop_past _ 0 1 1 0 (by omega)]
    · rw [if_neg h]
      exact segLoop_empty_ids _ t.length (fun i => rfl) (t.length + 1) 1 0
        (by omega) (by omega)

/-!
C4: per-position covering ids are exactly the covering ranges, sorted
ascending by length, stably (equal-length ranges keep input order).
Stability is expressed by length-classes: for every length `L`, the
subsequence of ranges of length `L` in the sorted output equals the
subsequence of ranges of length `L` of the filtered input, in input
order.
-/

theorem filter_orderedInsert_len_eq (L : Int) (u : Underline)
    (hu : ulLen u = L) :
    ∀ l : List Underline,
      (List.orderedInsert lenLE u l).filter (fun v => decide (ulLen v = L)) =
        u :: l.filter (fun v => decide (ulLen v = L)) := by
  intro l
  induction l with
  | nil => simp [List.orderedInsert, hu]
  | cons v vs ih =>
    unfold List.orderedInsert
    by_cases hr : lenLE u v
    · rw [if_pos hr]
      simp [hu]
    · rw [if_neg hr]
      have hv : ¬ (ulLen v = L) := by
        intro hh
        exact hr (by unfold lenLE; omega)
      rw [List.filter_cons_of_neg (by simpa using hv)]
      rw [List.filter_cons_of_neg (by simpa using hv)]
      exact ih

theorem filter_orderedInsert_len_ne (L : Int) (u : Underline)
    (hu : ¬ ulLen u = L) :
    ∀ l : List Underline,
      (List.orderedInsert lenLE u l).filter (fun v => decide (ulLen v = L)) =
        l.filter (fun v => decide (ulLen v = L)) := by
  intro l
  induction l with
  | nil => simp [List.orderedInsert, hu]
  | cons v vs ih =>
    unfold List.orderedInsert
    by_cases hr : lenLE u v
    · rw [if_pos hr]
      rw [List.filter_cons_of_neg (by simpa using hu)]
    · rw [if_neg hr]
      by_cases hv : ulLen v = L
      · rw [List.filter_cons_of_pos (by simpa using hv)]
        rw [List.filter_cons_of_pos (by simpa using hv)]
        rw [ih]
      · rw [List.filter_cons_of_neg (by simpa using hv)]
        rw [List.filter_cons_of_neg (by simpa using hv)]
        exact ih

theorem filter_insertionSort_len (L : Int) :
    ∀ l : List Underline,
      (List.insertionSort lenLE l).filter (fun v => decide (ulLen v = L)) =
        l.filter (fun v => decide (ulLen v = L)) := by
  intro l
  induction l with
  | nil => rfl
  | cons u us ih =>
    unfold List.insertionSort
    by_cases hu : ulLen u = L
    · rw [filter_orderedInsert_len_eq L u hu]
      rw [List.filter_cons_of_pos (by simpa using hu)]
      rw [ih]
    · rw [filter_orderedInsert_len_ne L u hu]
      rw [List.filter_cons_of_neg (by simpa using hu)]
      exact ih

/-- C4: `getUnderlineIdsForIndex` maps the length-sorted covering ranges
to ids; the sorted covering ranges are a permutation of exactly the input
ranges covering position `i`, are in nondecreasing length order, and are
stable: for every length `L`, the ranges of length `L` appear exactly as
in the input order. -/
theorem claim4_covering_sorted_stable (uls : List Underline) (i : Nat) :
    getUnderlineIdsForIndex uls i = (sortedCovering uls i).map (fun u => u.id)
    ∧ List.Perm (sortedCovering uls i) (uls.filter (coversIdx i))
    ∧ List.Pairwise lenLE (sortedCovering uls i)
    ∧ ∀ L : Int,
        (sortedCovering uls i).filter (fun v => decide (ulLen v = L)) =
          (uls.filter (coversIdx i)).filter (fun v => decide (ulLen v = L)) := by
  refine ⟨rfl, List.perm_insertionSort lenLE _, ?_, fun L => ?_⟩
  · exact List.sorted_insertionSort lenLE _
  · exact filter_insertionSort_len L _

/-!
C2: containment of the expansion.  Trimming moves the offsets inward, so
containment relative to the *original* offsets fails (counterexample);
containment relative to the trimmed offsets holds.
-/

theorem trimLeftGo_ge (t : List Char) (e : Int) :
    ∀ f s, s ≤ trimLeftGo t e f s := by
  intro f
  induction f with
  | zero => intro s; exact le_refl s
  | succ f ih =>
    intro s
    unfold trimLeftGo
    split
    · exact le_trans (by omega) (ih (s+1))
    · exact le_refl s

theorem trimRightGo_le (t : List Char) (s : Int) :
    ∀ f e, trimRightGo t s f e ≤ e := by
  intro f
  induction f with
  | zero => intro e; exact le_refl e
  | succ f ih =>
    intro e
    unfold trimRightGo
    split
    · exact le_trans (ih (e-1)) (by omega)
    · exact le_refl e

theorem expandLeftGo_le (t : List Char) :
    ∀ f p, expandLeftGo t f p ≤ p := by
  intro f
  induction f with
  | zero => intro p; exact le_refl p
  | succ f ih =>
    intro p
    unfold expandLeftGo
    split
    · exact le_trans (ih (p-1)) (by omega)
    · exact le_refl p

theorem expandRightGo_ge (t : List Char) :
    ∀ f p, p ≤ expandRightGo t f p := by
  intro f
  induction f with
  | zero => intro p; exact le_refl p
  | succ f ih =>
    intro p
    unfold expandRightGo
    split
    · exact le_trans (by omega) (ih (p+1))
    · exact le_refl p

/-- C2 (counterexample): for the non-degenerate input
`(" ab", 0, 3)` the expansion returns `(1, 3)`: whitespace trimming moves
the start forward, so the output does not contain the original
(untrimmed) start offset. -/
theorem claim2_containment_cex :
    ¬ ((expandToWordBoundaries " ab".data 0 3).1 ≤ 0
       ∧ 3 ≤ (expandToWordBoundaries " ab".data 0 3).2) := by decide

/-- C2 (amended): for every text and non-degenerate pair `start < end`,
the output of `expandToWordBoundaries` contains the *whitespace-trimmed*
bounds: `newStart ≤ trimmedStart` and `trimmedEnd ≤ newEnd` (the spec's
own refinement "relative to the trimmed bounds"). -/
theorem claim2_trimmed_containment (t : List Char) (s e : Int) (h : s < e) :
    (expandToWordBoundaries t s e).1 ≤ trimmedStart t s e
    ∧ trimmedStop t s e ≤ (expandToWordBoundaries t s e).2 := by
  unfold expandToWordBoundaries
  rw [if_neg (by omega)]
  split
  · exact ⟨le_refl _, le_refl _⟩
  · split
    · exact ⟨le_refl _, le_refl _⟩
    · exact ⟨expandLeftGo_le t _ _, expandRightGo_ge t _ _⟩

/-- C2 witness: the amended containment at the concrete counterexample
input. -/
theorem claim2_trimmed_containment_witness :
    (0 : Int) < 3
    ∧ ((expandToWordBoundaries " ab".data 0 3).1 ≤ trimmedStart " ab".data 0 3
       ∧ trimmedStop " ab".data 0 3 ≤ (expandToWordBoundaries " ab".data 0 3).2) :=
  ⟨by decide, claim2_trimmed_containment " ab".data 0 3 (by decide)⟩

/-!
C10: idempotence of `expandToWordBoundaries` on in-range non-degenerate
inputs.  The proof needs full characterizations of the four loops (what
the skipped characters look like and why the loop stopped), the
fuel-independent one-step stop lemmas, and the link between the
`slice`-based punctuation-only test and per-position characters.
-/

theorem wsTest_of_wordTest (oc : Option Char) (h : wordTest oc = true) :
    wsTest (oc) = false := by
  cases oc with
  | none => rfl
  | some c =>
    simp only [wordTest, Bool.not_eq_true'] at h
    simp only [wsTest]
    cases hw : jsWs c with
    | false => rfl
    | true => rw [hw] at h; simp at h

theorem trimLeftGo_spec (t : List Char) (e : Int) :
    ∀ f s, (e - s).toNat ≤ f →
      (∀ i, s ≤ i → i < trimLeftGo t e f s → wsTest (charAt t i) = true)
      ∧ (trimLeftGo t e f s < e → wsTest (charAt t (trimLeftGo t e f s)) = false)
      ∧ (s ≤ e → trimLeftGo t e f s ≤ e) := by
  intro f
  induction f with
  | zero =>
    intro s hf
    have hes : e ≤ s := by omega
    refine ⟨fun i h1 h2 => ?_, fun h => ?_, fun h => ?_⟩
    · simp only [trimLeftGo] at h2; omega
    · simp only [trimLeftGo] at h; omega
    · simp only [trimLeftGo]; omega
  | succ f ih =>
    intro s hf
    by_cases hc : (decide (s < e) && wsTest (charAt t s)) = true
    · have hws : wsTest (charAt t s) = true := by
        simp only [Bool.and_eq_true, decide_eq_true_eq] at hc; exact hc.2
      have hse : s < e := by
        simp only [Bool.and_eq_true, decide_eq_true_eq] at hc; exact hc.1
      have heq : trimLeftGo t e (f+1) s = trimLeftGo t e f (s+1) := by
        conv_lhs => unfold trimLeftGo
        rw [if_pos hc]
      obtain ⟨ih1, ih2, ih3⟩ := ih (s+1) (by omega)
      refine ⟨fun i h1 h2 => ?_, fun h => ?_, fun h => ?_⟩
      · rw [heq] at h2
        by_cases hi : i = s
        · rw [hi]; exact hws
        · exact ih1 i (by omega) h2
      · rw [heq] at h ⊢; exact ih2 h
      · rw [heq]; exact ih3 (by omega)
    · have heq : trimLeftGo t e (f+1) s = s := by
        unfold trimLeftGo; rw [if_neg hc]
      refine ⟨fun i h1 h2 => ?_, fun h => ?_, fun h => ?_⟩
      · rw [heq] at h2; omega
      · rw [heq] at h ⊢
        cases hw : wsTest (charAt t s) with
        | false => rfl
        | true => exact absurd (by simp [hw, h] : _) hc
      · rw [heq]; exact h

theorem trimRightGo_spec (t : List Char) (s : Int) :
    ∀ f e, (e - s).toNat ≤ f →
      (∀ i, trimRightGo t s f e ≤ i → i < e → wsTest (charAt t i) = true)
      ∧ (s < trimRightGo t s f e →
          wsTest (charAt t (trimRightGo t s f e - 1)) = false)
      ∧ (s ≤ e → s ≤ trimRightGo t s f e) := by
  intro f
  induction f with
  | zero =>
    intro e hf
    have hes : e ≤ s := by omega
    refine ⟨fun i h1 h2 => ?_, fun h => ?_, fun h => ?_⟩
    · simp only [trimRightGo] at h1; omega
    · simp only [trimRightGo] at h; omega
    · simp only [trimRightGo]; omega
  | succ f ih =>
    intro e hf
    by_cases hc : (decide (s < e) && wsTest (charAt t (e-1))) = true
    · have hws : wsTest (charAt t (e-1)) = true := by
        simp only [Bool.and_eq_true, decide_eq_true_eq] at hc; exact hc.2
      have hse : s < e := by
        simp only [Bool.and_eq_true, decide_eq_true_eq] at hc; exact hc.1
      have heq : trimRightGo t s (f+1) e = trimRightGo t s f (e-1) := by
        conv_lhs => unfold trimRightGo
        rw [if_pos hc]
      obtain ⟨ih1, ih2, ih3⟩ := ih (e-1) (by omega)
      refine ⟨fun i h1 h2 => ?_, fun h => ?_, fun h => ?_⟩
      · rw [heq] at h1
        by_cases hi : i = e - 1
        · rw [hi]; exact hws
        · exact ih1 i h1 (by omega)
      · rw [heq] at h ⊢; exact ih2 h
      · rw [heq]; exact ih3 (by omega)
    · have heq : trimRightGo t s (f+1) e = e := by
        unfold trimRightGo; rw [if_neg hc]
      refine ⟨fun i h1 h2 => ?_, fun h => ?_, fun h => ?_⟩
      · rw [heq] at h1; omega
      · rw [heq] at h ⊢
        cases hw : wsTest (charAt t (e-1)) with
        | false => rfl
        | true => exact absurd (by simp [hw, h] : _) hc
      · rw [heq]; exact h

theorem expandLeftGo_spec (t : List Char) :
    ∀ f p, p.toNat ≤ f →
      (∀ i, expandLeftGo t f p ≤ i → i < p → wordTest (charAt t i) = true)
      ∧ (0 < expandLeftGo t f p →
          wordTest (charAt t (expandLeftGo t f p - 1)) = false)
      ∧ (0 ≤ p → 0 ≤ expandLeftGo t f p) := by
  intro f
  induction f with
  | zero =>
    intro p hf
    have hp : p ≤ 0 := by omega
    refine ⟨fun i h1 h2 => ?_, fun h => ?_, fun h => ?_⟩
    · simp only [expandLeftGo] at h1; omega
    · simp only [expandLeftGo] at h; omega
    · simp only [expandLeftGo]; omega
  | succ f ih =>
    intro p hf
    by_cases hc : (decide (0 < p) && wordTest (charAt t (p-1))) = true
    · have hw : wordTest (charAt t (p-1)) = true := by
        simp only [Bool.and_eq_true, decide_eq_true_eq] at hc; exact hc.2
      have hp : 0 < p := by
        simp only [Bool.and_eq_true, decide_eq_true_eq] at hc; exact hc.1
      have heq : expandLeftGo t (f+1) p = expandLeftGo t f (p-1) := by
        conv_lhs => unfold expandLeftGo
        rw [if_pos hc]
      obtain ⟨ih1, ih2, ih3⟩ := ih (p-1) (by omega)
      refine ⟨fun i h1 h2 => ?_, fun h => ?_, fun h => ?_⟩
      · rw [heq] at h1
        by_cases hi : i = p - 1
        · rw [hi]; exact hw
        · exact ih1 i h1 (by omega)
      · rw [heq] at h ⊢; exact ih2 h
      · rw [heq]; exact ih3 (by omega)
    · have heq : expandLeftGo t (f+1) p = p := by
        unfold expandLeftGo; rw [if_neg hc]
      refine ⟨fun i h1 h2 => ?_, fun h => ?_, fun h => ?_⟩
      · rw [heq] at h1; omega
      · rw [heq] at h ⊢
        cases hw : wordTest (charAt t (p-1)) with
        | false => rfl
        | true => exact absurd (by simp [hw, h] : _) hc
      · rw [heq]; exact h

theorem expandRightGo_spec (t : List Char) :
    ∀ f p, ((t.length : Int) - p).toNat ≤ f →
      (∀ i, p ≤ i → i < expandRightGo t f p → wordTest (charAt t i) = true)
      ∧ (expandRightGo t f p < (t.length : Int) →
          wordTest (charAt t (expandRightGo t f p)) = false)
      ∧ (p ≤ (t.length : Int) → expandRightGo t f p ≤ (t.length : Int)) := by
  intro f
  induction f with
  | zero =>
    intro p hf
    have hp : (t.length : Int) ≤ p := by omega
    refine ⟨fun i h1 h2 => ?_, fun h => ?_, fun h => ?_⟩
    · simp only [expandRightGo] at h2; omega
    · simp only [expandRightGo] at h; omega
    · simp only [expandRightGo]; omega
  | succ f ih =>
    intro p hf
    by_cases hc : (decide (p < (t.length : Int)) && wordTest (charAt t p)) = true
    · have hw : wordTest (charAt t p) = true := by
        simp only [Bool.and_eq_true, decide_eq_true_eq] at hc; exact hc.2
      have hp : p < (t.length : Int) := by
        simp only [Bool.and_eq_true, decide_eq_true_eq] at hc; exact hc.1
      have heq : expandRightGo t (f+1) p = expandRightGo t f (p+1) := by
        conv_lhs => unfold expandRightGo
        rw [if_pos hc]
      obtain ⟨ih1, ih2, ih3⟩ := ih (p+1) (by omega)
      refine ⟨fun i h1 h2 => ?_, fun h => ?_, fun h => ?_⟩
      · rw [heq] at h2
        by_cases hi : i = p
        · rw [hi]; exact hw
        · exact ih1 i (by omega) h2
      · rw [heq] at h ⊢; exact ih2 h
      · rw [heq]; exact ih3 (by omega)
    · have heq : expandRightGo t (f+1) p = p := by
        unfold expandRightGo; rw [if_neg hc]
      refine ⟨fun i h1 h2 => ?_, fun h => ?_, fun h => ?_⟩
      · rw [heq] at h2; omega
      · rw [heq] at h ⊢
        cases hw : wordTest (charAt t p) with
        | false => rfl
        | true => exact absurd (by simp [hw, h] : _) hc
      · rw [heq]; exact h

/-! One-step stop lemmas (fuel-independent): when the loop guard fails at
entry, every fueled run returns the input unchanged. -/

theorem trimLeftGo_stop (t : List Char) (e : Int) (f : Nat) (s : Int)
    (h : wsTest (charAt t s) = false) : trimLeftGo t e f s = s := by
  cases f with
  | zero => rfl
  | succ f =>
    conv_lhs => unfold trimLeftGo
    rw [if_neg (by simp [h])]

theorem trimRightGo_stop (t : List Char) (s : Int) (f : Nat) (e : Int)
    (h : wsTest (charAt t (e-1)) = false) : trimRightGo t s f e = e := by
  cases f with
  | zero => rfl
  | succ f =>
    conv_lhs => unfold trimRightGo
    rw [if_neg (by simp [h])]

theorem expandLeftGo_stop (t : List Char) (f : Nat) (p : Int)
    (h : 0 < p → wordTest (charAt t (p-1)) = false) :
    expandLeftGo t f p = p := by
  cases f with
  | zero => rfl
  | succ f =>
    conv_lhs => unfold expandLeftGo
    rw [if_neg ?_]
    by_cases hp : 0 < p
    · simp [h hp]
    · simp [hp]

theorem expandRightGo_stop (t : List Char) (f : Nat) (p : Int)
    (h : p < (t.length : Int) → wordTest (charAt t p) = false) :
    expandRightGo t f p = p := by
  cases f with
  | zero => rfl
  | succ f =>
    conv_lhs => unfold expandRightGo
    rw [if_neg ?_]
    by_cases hp : p < (t.length : Int)
    · simp [h hp]
    · simp [hp]

/-! Linking the slice-based punctuation-only test with per-position
characters. -/

theorem jsSliceIdx_of_range (t : List Char) (x : Int) (h0 : 0 ≤ x)
    (hn : x ≤ (t.length : Int)) : jsSliceIdx t x = x := by
  unfold jsSliceIdx
  rw [if_neg (by omega)]
  exact min_eq_left hn

theorem jsSlice_in_range (t : List Char) (a b : Int) (h0 : 0 ≤ a)
    (hab : a ≤ b) (hb : b ≤ (t.length : Int)) :
    jsSlice t a b = (t.drop a.toNat).take (b - a).toNat := by
  unfold jsSlice
  rw [jsSliceIdx_of_range t a h0 (by omega), jsSliceIdx_of_range t b (by omega) hb]
  by_cases hlt : a < b
  · rw [if_pos hlt]
  · rw [if_neg hlt]
    have : (b - a).toNat = 0 := by omega
    rw [this, List.take_zero]

theorem charAt_nonneg (t : List Char) (i : Int) (h0 : 0 ≤ i) :
    charAt t i = t[i.toNat]? := by
  unfold charAt
  rw [if_neg (by omega), List.get?_eq_getElem?]

theorem charAt_in_range (t : List Char) (i : Int) (h0 : 0 ≤ i)
    (hn : i < (t.length : Int)) :
    ∃ hh : i.toNat < t.length, charAt t i = some (t.get ⟨i.toNat, hh⟩) := by
  have hh : i.toNat < t.length := by omega
  refine ⟨hh, ?_⟩
  rw [charAt_nonneg t i h0, List.getElem?_eq_getElem hh, List.get_eq_getElem]

theorem mem_jsSlice_iff (t : List Char) (a b : Int) (h0 : 0 ≤ a)
    (hab : a ≤ b) (hb : b ≤ (t.length : Int)) (c : Char) :
    c ∈ jsSlice t a b ↔ ∃ i : Int, a ≤ i ∧ i < b ∧ charAt t i = some c := by
  rw [jsSlice_in_range t a b h0 hab hb]
  constructor
  · intro hmem
    obtain ⟨j, hj⟩ := List.mem_iff_getElem?.mp hmem
    have hjt : j < (b - a).toNat := by
      have := (List.getElem?_eq_some.mp hj).1
      rw [List.length_take, List.length_drop] at this
      omega
    rw [List.getElem?_take, if_pos hjt, List.getElem?_drop] at hj
    refine ⟨a + j, by omega, by omega, ?_⟩
    rw [charAt_nonneg t (a + j) (by omega)]
    have hcast : (a + j).toNat = a.toNat + j := by omega
    rw [hcast]
    exact hj
  · rintro ⟨i, hai, hib, hci⟩
    rw [charAt_nonneg t i (by omega)] at hci
    apply List.mem_iff_getElem?.mpr
    refine ⟨i.toNat - a.toNat, ?_⟩
    rw [List.getElem?_take, if_pos (by omega), List.getElem?_drop]
    have hcast : a.toNat + (i.toNat - a.toNat) = i.toNat := by omega
    rw [hcast]
    exact hci

theorem exists_word_of_not_wsOrSepOnly (t : List Char) (a b : Int)
    (h0 : 0 ≤ a) (hab : a < b) (hb : b ≤ (t.length : Int))
    (h : wsOrSepOnly (jsSlice t a b) = false) :
    ∃ i : Int, a ≤ i ∧ i < b ∧ wordTest (charAt t i) = true := by
  unfold wsOrSepOnly at h
  rw [Bool.and_eq_false_iff] at h
  cases h with
  | inl hemp =>
    exfalso
    rw [Bool.not_eq_false', List.isEmpty_iff] at hemp
    have hlen := congrArg List.length hemp
    rw [jsSlice_in_range t a b h0 (by omega) hb] at hlen
    rw [List.length_take, List.length_drop] at hlen
    simp only [List.length_nil] at hlen
    omega
  | inr hall =>
    have : ∃ c ∈ jsSlice t a b, ¬ (jsWs c || sepPunct c) = true := by
      simpa [List.all_eq_true] using hall
    obtain ⟨c, hmem, hc⟩ := this
    obtain ⟨i, hai, hib, hci⟩ :=
      (mem_jsSlice_iff t a b h0 (by omega) hb c).mp hmem
    refine ⟨i, hai, hib, ?_⟩
    rw [hci]
    simp only [wordTest, Bool.not_eq_true]
    simp only [Bool.not_eq_true] at hc
    rw [hc]
    rfl

theorem not_wsOrSepOnly_of_word (t : List Char) (a b i : Int)
    (h0 : 0 ≤ a) (hb : b ≤ (t.length : Int)) (hai : a ≤ i) (hib : i < b)
    (hw : wordTest (charAt t i) = true) :
    wsOrSepOnly (jsSlice t a b) = false := by
  obtain ⟨hh, hch⟩ := charAt_in_range t i (by omega) (by omega)
  rw [hch] at hw
  have hmem : t.get ⟨i.toNat, hh⟩ ∈ jsSlice t a b :=
    (mem_jsSlice_iff t a b h0 (by omega) hb _).mpr ⟨i, hai, hib, hch⟩
  have hc : (jsWs (t.get ⟨i.toNat, hh⟩) || sepPunct (t.get ⟨i.toNat, hh⟩)) = false := by
    simpa [wordTest] using hw
  unfold wsOrSepOnly
  rw [Bool.and_eq_false_iff]
  right
  rw [← Bool.not_eq_true, List.all_eq_true]
  intro hallc
  have := hallc _ hmem
  rw [hc] at this
  cases this

/-! The trimmed bounds, characterized. -/

theorem trimmedStart_spec (t : List Char) (s e : Int) :
    s ≤ trimmedStart t s e
    ∧ (∀ i, s ≤ i → i < trimmedStart t s e → wsTest (charAt t i) = true)
    ∧ (trimmedStart t s e < e → wsTest (charAt t (trimmedStart t s e)) = false)
    ∧ (s ≤ e → trimmedStart t s e ≤ e) := by
  unfold trimmedStart
  obtain ⟨h1, h2, h3⟩ := trimLeftGo_spec t e (e - s).toNat s (le_refl _)
  exact ⟨trimLeftGo_ge t e _ s, h1, h2, h3⟩

theorem trimmedStop_spec (t : List Char) (s e : Int) :
    trimmedStop t s e ≤ e
    ∧ (∀ i, trimmedStop t s e ≤ i → i < e → wsTest (charAt t i) = true)
    ∧ (trimmedStart t s e < trimmedStop t s e →
        wsTest (charAt t (trimmedStop t s e - 1)) = false)
    ∧ (trimmedStart t s e ≤ e → trimmedStart t s e ≤ trimmedStop t s e) := by
  unfold trimmedStop
  obtain ⟨h1, h2, h3⟩ :=
    trimRightGo_spec t (trimmedStart t s e) (e - trimmedStart t s e).toNat e (le_refl _)
  exact ⟨trimRightGo_le t _ _ e, h1, h2, h3⟩

/-- A pair whose edge characters are not whitespace is already trimmed. -/
theorem trimmed_fixed (t : List Char) (a b : Int)
    (hwsa : wsTest (charAt t a) = false)
    (hwsb : wsTest (charAt t (b-1)) = false) :
    trimmedStart t a b = a ∧ trimmedStop t a b = b := by
  have h1 : trimmedStart t a b = a := by
    unfold trimmedStart
    exact trimLeftGo_stop t _ _ _ hwsa
  refine ⟨h1, ?_⟩
  unfold trimmedStop
  rw [h1]
  exact trimRightGo_stop t _ _ _ hwsb

/-- A degenerate pair is returned unchanged. -/
theorem expand_deg (t : List Char) (a b : Int) (hba : b ≤ a) :
    expandToWordBoundaries t a b = (a, b) := by
  unfold expandToWordBoundaries
  rw [if_pos hba]

/-- A pair on which trimming and (when applicable) expansion are already
at a fixed point is returned unchanged. -/
theorem expand_fixed (t : List Char) (a b : Int)
    (hab : a < b)
    (hta : trimmedStart t a b = a)
    (htb : trimmedStop t a b = b)
    (hrest : wsOrSepOnly (jsSlice t a b) = true ∨
      (expandLeftGo t a.toNat a = a ∧
       expandRightGo t ((t.length : Int) - b).toNat b = b)) :
    expandToWordBoundaries t a b = (a, b) := by
  unfold expandToWordBoundaries
  rw [if_neg (by omega), hta, htb, if_neg (by omega)]
  cases hrest with
  | inl hp => rw [if_pos hp]
  | inr hp =>
    by_cases hpunct : wsOrSepOnly (jsSlice t a b) = true
    · rw [if_pos hpunct]
    · rw [if_neg hpunct, hp.1, hp.2]

/-- C10: `expandToWordBoundaries` is idempotent on in-range non-degenerate
inputs: applying it to its own output returns that output unchanged. -/
theorem claim10_expand_idempotent (t : List Char) (s e : Int)
    (h0 : 0 ≤ s) (hse : s < e) (hn : e ≤ (t.length : Int)) :
    expandToWordBoundaries t (expandToWordBoundaries t s e).1
      (expandToWordBoundaries t s e).2 = expandToWordBoundaries t s e := by
  obtain ⟨hA1, hA2, hA3, hA4⟩ := trimmedStart_spec t s e
  obtain ⟨hB1, hB2, hB3, hB4⟩ := trimmedStop_spec t s e
  have hs1e : trimmedStart t s e ≤ e := hA4 (by omega)
  have hs1e1 : trimmedStart t s e ≤ trimmedStop t s e := hB4 hs1e
  have h0s1 : 0 ≤ trimmedStart t s e := le_trans h0 hA1
  have he1n : trimmedStop t s e ≤ (t.length : Int) := le_trans hB1 hn
  by_cases hdeg : trimmedStop t s e ≤ trimmedStart t s e
  · have hfirst : expandToWordBoundaries t s e =
        (trimmedStart t s e, trimmedStop t s e) := by
      unfold expandToWordBoundaries
      rw [if_neg (by omega), if_pos hdeg]
    rw [hfirst]
    exact expand_deg t _ _ hdeg
  · have hlt : trimmedStart t s e < trimmedStop t s e := by omega
    have hs1lte : trimmedStart t s e < e := by omega
    by_cases hpunct : wsOrSepOnly (jsSlice t (trimmedStart t s e) (trimmedStop t s e)) = true
    · have hfirst : expandToWordBoundaries t s e =
          (trimmedStart t s e, trimmedStop t s e) := by
        unfold expandToWordBoundaries
        rw [if_neg (by omega), if_neg hdeg, if_pos hpunct]
      rw [hfirst]
      obtain ⟨hta, htb⟩ :=
        trimmed_fixed t (trimmedStart t s e) (trimmedStop t s e)
          (hA3 hs1lte) (hB3 hlt)
      exact expand_fixed t _ _ hlt hta htb (Or.inl hpunct)
    · obtain ⟨hC1, hC2, hC3⟩ :=
        expandLeftGo_spec t (trimmedStart t s e).toNat (trimmedStart t s e) (le_refl _)
      obtain ⟨hD1, hD2, hD3⟩ :=
        expandRightGo_spec t ((t.length : Int) - trimmedStop t s e).toNat
          (trimmedStop t s e) (le_refl _)
      have hs2s1 : expandLeftGo t (trimmedStart t s e).toNat (trimmedStart t s e) ≤
          trimmedStart t s e := expandLeftGo_le t _ _
      have he1e2 : trimmedStop t s e ≤
          expandRightGo t ((t.length : Int) - trimmedStop t s e).toNat
            (trimmedStop t s e) := expandRightGo_ge t _ _
      have h0s2 : 0 ≤ expandLeftGo t (trimmedStart t s e).toNat (trimmedStart t s e) :=
        hC3 h0s1
      have he2n : expandRightGo t ((t.length : Int) - trimmedStop t s e).toNat
          (trimmedStop t s e) ≤ (t.length : Int) := hD3 he1n
      have hs2e2 : expandLeftGo t (trimmedStart t s e).toNat (trimmedStart t s e) <
          expandRightGo t ((t.length : Int) - trimmedStop t s e).toNat
            (trimmedStop t s e) := by omega
      obtain ⟨i0, hi0a, hi0b, hi0w⟩ :=
        exists_word_of_not_wsOrSepOnly t (trimmedStart t s e) (trimmedStop t s e)
          h0s1 hlt he1n (by simpa using hpunct)
      have hfirst : expandToWordBoundaries t s e =
          (expandLeftGo t (trimmedStart t s e).toNat (trimmedStart t s e),
           expandRightGo t ((t.length : Int) - trimmedStop t s e).toNat
             (trimmedStop t s e)) := by
        unfold expandToWordBoundaries
        rw [if_neg (by omega), if_neg hdeg, if_neg hpunct]
      rw [hfirst]
      have hwss2 : wsTest (charAt t
          (expandLeftGo t (trimmedStart t s e).toNat (trimmedStart t s e))) = false := by
        by_cases hcase : expandLeftGo t (trimmedStart t s e).toNat (trimmedStart t s e) <
            trimmedStart t s e
        · exact wsTest_of_wordTest _ (hC1 _ (le_refl _) hcase)
        · have heqc : expandLeftGo t (trimmedStart t s e).toNat (trimmedStart t s e) =
              trimmedStart t s e := by omega
          rw [heqc]
          exact hA3 hs1lte
      have hwse2 : wsTest (charAt t
          (expandRightGo t ((t.length : Int) - trimmedStop t s e).toNat
            (trimmedStop t s e) - 1)) = false := by
        by_cases hcase : trimmedStop t s e <
            expandRightGo t ((t.length : Int) - trimmedStop t s e).toNat (trimmedStop t s e)
        · exact wsTest_of_wordTest _ (hD1 _ (by omega) (by omega))
        · have heqc : expandRightGo t ((t.length : Int) - trimmedStop t s e).toNat
              (trimmedStop t s e) = trimmedStop t s e := by omega
          rw [heqc]
          exact hB3 hlt
      obtain ⟨hta, htb⟩ :=
        trimmed_fixed t
          (expandLeftGo t (trimmedStart t s e).toNat (trimmedStart t s e))
          (expandRightGo t ((t.length : Int) - trimmedStop t s e).toNat
            (trimmedStop t s e)) hwss2 hwse2
      refine expand_fixed t _ _ hs2e2 hta htb (Or.inr ⟨?_, ?_⟩)
      · exact expandLeftGo_stop t _ _ hC2
      · exact expandRightGo_stop t _ _ hD2

/-- C10 witness: idempotence at a concrete in-range expansion that
actually moves both offsets. -/
theorem claim10_expand_idempotent_witness :
    (0 : Int) ≤ 4 ∧ (4 : Int) < 6 ∧ (6 : Int) ≤ ("hi there".data.length : Int)
    ∧ expandToWordBoundaries "hi there".data
        (expandToWordBoundaries "hi there".data 4 6).1
        (expandToWordBoundaries "hi there".data 4 6).2 =
      expandToWordBoundaries "hi there".data 4 6 :=
  ⟨by decide, by decide, by decide,
    claim10_expand_idempotent "hi there".data 4 6 (by decide) (by decide) (by decide)⟩
